import Mathlib

/-!
Verification development for the fastfind core (scanner + multi-tier cache).

The Python source under src/fastfind is shallowly embedded: Python dicts keyed
by strings become association lists, `time.time()` becomes an explicit `now : Nat`
argument threaded through every operation, and fallible code returns `Except`.
-/

namespace FastFind

/-! ### Association lists: the model of Python dicts keyed by strings -/

/-- Lookup of a key in an association list (model of `d[k]` / `k in d`). -/
def lookupKey {α : Type} : List (String × α) → String → Option α
  | [], _ => none
  | (k2, v) :: rest, k => if k2 = k then some v else lookupKey rest k

/-- Model of `k in d` for a Python dict. -/
def containsKey {α : Type} (l : List (String × α)) (k : String) : Bool :=
  (lookupKey l k).isSome

/-- Model of `d[k] = v`: overwrite in place if present, append otherwise. -/
def setKey {α : Type} : List (String × α) → String → α → List (String × α)
  | [], k, v => [(k, v)]
  | (k2, v2) :: rest, k, v =>
    if k2 = k then (k, v) :: rest else (k2, v2) :: setKey rest k v

/-- Model of `del d[k]`: remove every pair with the given key. -/
def eraseKey {α : Type} : List (String × α) → String → List (String × α)
  | [], _ => []
  | (k2, v2) :: rest, k =>
    if k2 = k then eraseKey rest k else (k2, v2) :: eraseKey rest k

/-- The dict representation stores each key at most once. -/
def keysNodup {α : Type} (l : List (String × α)) : Prop :=
  (l.map Prod.fst).Nodup

/-- Model of Python `list.remove(x)` (first occurrence), total on absent keys. -/
def removeFirst : List String → String → List String
  | [], _ => []
  | x :: xs, k => if x = k then xs else x :: removeFirst xs k

/-! ### Cache values

Everything routed through this cache subsystem is a file-path list
(`CacheManager.set_file_list` stores `List[str]`), so cached values are
modelled as lists of strings. -/

abbrev Val : Type := List String

/-! ### MemoryCache (cache.py, class MemoryCache)

`time.time()` is modelled by an explicit `now : Nat` argument on each
operation; entries are `{value, timestamp}` pairs as in the source. -/

structure MemEntry where
  value : Val
  timestamp : Nat
  deriving DecidableEq

structure MemoryCache where
  ttl : Nat
  max_size : Nat
  cache : List (String × MemEntry)
  access_order : List String
  hits : Nat
  misses : Nat
  deriving DecidableEq

/-- `MemoryCache.__init__` (defaults `ttl=300`, `max_size=1000`). -/
def MemoryCache.init (ttl : Nat := 300) (max_size : Nat := 1000) : MemoryCache :=
  { ttl := ttl, max_size := max_size, cache := [], access_order := [],
    hits := 0, misses := 0 }

/-- `MemoryCache.get`: expired entries are purged and counted as a miss; a
hit moves the key to the most-recently-used (last) position. -/
def MemoryCache.get (c : MemoryCache) (key : String) (now : Nat) :
    Option Val × MemoryCache :=
  match lookupKey c.cache key with
  | some entry =>
    if now - entry.timestamp > c.ttl then
      (none, { c with cache := eraseKey c.cache key,
                      access_order := removeFirst c.access_order key,
                      misses := c.misses + 1 })
    else
      (some entry.value,
       { c with access_order := removeFirst c.access_order key ++ [key],
                hits := c.hits + 1 })
  | none => (none, { c with misses := c.misses + 1 })

/-- `MemoryCache.set`: if at capacity, pop the head of the access order
(least recently used) and delete it, then insert at the MRU position. -/
def MemoryCache.set (c : MemoryCache) (key : String) (v : Val) (now : Nat) :
    MemoryCache :=
  let c1 :=
    if c.max_size ≤ c.cache.length then
      match c.access_order with
      | [] => c
      | oldest :: rest =>
        { c with access_order := rest, cache := eraseKey c.cache oldest }
    else c
  { c1 with cache := setKey c1.cache key ⟨v, now⟩,
            access_order := removeFirst c1.access_order key ++ [key] }

/-- `MemoryCache.delete`. -/
def MemoryCache.delete (c : MemoryCache) (key : String) : MemoryCache :=
  { c with cache := eraseKey c.cache key,
           access_order := removeFirst c.access_order key }

/-- `MemoryCache.clear`. -/
def MemoryCache.clear (c : MemoryCache) : MemoryCache :=
  { c with cache := [], access_order := [], hits := 0, misses := 0 }

/-- `MemoryCache.cleanup_expired`: collect the expired keys, then delete each. -/
def MemoryCache.cleanup_expired (c : MemoryCache) (now : Nat) : MemoryCache × Nat :=
  let expired := ((c.cache.filter fun kv => now - kv.2.timestamp > c.ttl).map Prod.fst)
  (expired.foldl (fun acc k => acc.delete k) c, expired.length)

/-- Well-formedness of a `MemoryCache`: the recency list `access_order`
holds each cached key exactly once and nothing else (the `_access_order`
list and the `_cache` dict never desynchronize), the dict holds each key
once, and for a positive capacity the entry count stays within it. -/
def MemoryCache.WF (c : MemoryCache) : Prop :=
  c.access_order.Nodup ∧
  (∀ k, k ∈ c.access_order ↔ containsKey c.cache k = true) ∧
  keysNodup c.cache ∧
  (1 ≤ c.max_size → c.cache.length ≤ c.max_size)

/-! ### DiskCache (cache.py, class DiskCache)

The SQLite table `file_cache` is a key-indexed row store; `pickle`
round-trips are modelled as the identity (values are stored directly), so
the corruption branch of `get` does not arise in the model. -/

structure DiskRow where
  value : Val
  timestamp : Nat
  path : String
  file_count : Nat
  total_size : Nat
  deriving DecidableEq

structure DiskCache where
  ttl : Nat
  table : List (String × DiskRow)
  hits : Nat
  misses : Nat
  deriving DecidableEq

/-- `DiskCache.__init__` (default `ttl=3600`), with an empty table. -/
def DiskCache.init (ttl : Nat := 3600) : DiskCache :=
  { ttl := ttl, table := [], hits := 0, misses := 0 }

/-- `DiskCache.delete`: `DELETE FROM file_cache WHERE key = ?`. -/
def DiskCache.delete (c : DiskCache) (key : String) : DiskCache :=
  { c with table := eraseKey c.table key }

/-- `DiskCache.get`: row lookup, TTL check (expired rows are deleted and
counted as a miss), then the deserialized value with a hit count. -/
def DiskCache.get (c : DiskCache) (key : String) (now : Nat) :
    Option Val × DiskCache :=
  match lookupKey c.table key with
  | some row =>
    if now - row.timestamp > c.ttl then
      (none, { c with table := eraseKey c.table key, misses := c.misses + 1 })
    else
      (some row.value, { c with hits := c.hits + 1 })
  | none => (none, { c with misses := c.misses + 1 })

/-- `DiskCache.set`: `INSERT OR REPLACE`; `file_count = len(value)` (values
are lists here) and `total_size` from the metadata dict when given. -/
def DiskCache.set (c : DiskCache) (key : String) (v : Val) (path : String)
    (metadata : Option Nat) (now : Nat) : DiskCache :=
  { c with table := setKey c.table key ⟨v, now, path, v.length, metadata.getD 0⟩ }

/-- `DiskCache.clear`. -/
def DiskCache.clear (c : DiskCache) : DiskCache :=
  { c with table := [], hits := 0, misses := 0 }

/-- `DiskCache.cleanup_expired`: bulk delete of rows with
`timestamp < now - ttl` (Nat subtraction truncates at 0, matching the
float comparison for the non-negative timestamps that occur). -/
def DiskCache.cleanup_expired (c : DiskCache) (now : Nat) : DiskCache × Nat :=
  let keep := c.table.filter fun kv => ¬ (kv.2.timestamp < now - c.ttl)
  ({ c with table := keep }, c.table.length - keep.length)

/-! ### HierarchicalCache (cache.py, class HierarchicalCache) -/

structure HierarchicalCache where
  memory_cache : MemoryCache
  disk_cache : DiskCache
  deriving DecidableEq

/-- `HierarchicalCache.__init__` (memory ttl 300, disk ttl 3600). -/
def HierarchicalCache.init : HierarchicalCache :=
  { memory_cache := MemoryCache.init 300 1000, disk_cache := DiskCache.init 3600 }

/-- `HierarchicalCache.get`: memory first; on memory miss consult disk and
promote a disk hit into memory before returning it. -/
def HierarchicalCache.get (h : HierarchicalCache) (key : String) (now : Nat) :
    Option Val × HierarchicalCache :=
  match h.memory_cache.get key now with
  | (some value, m1) => (some value, { h with memory_cache := m1 })
  | (none, m1) =>
    match h.disk_cache.get key now with
    | (some value, d1) =>
      (some value, { memory_cache := m1.set key value now, disk_cache := d1 })
    | (none, d1) => (none, { memory_cache := m1, disk_cache := d1 })

/-- `HierarchicalCache.set`: write-through to both tiers. -/
def HierarchicalCache.set (h : HierarchicalCache) (key : String) (v : Val)
    (path : String) (metadata : Option Nat) (now : Nat) : HierarchicalCache :=
  { memory_cache := h.memory_cache.set key v now,
    disk_cache := h.disk_cache.set key v path metadata now }

/-! ### FileSystemCache (cache.py, class FileSystemCache)

The on-disk per-directory JSON files are modelled as a string-keyed store;
the directory existence / modification-time probes are inputs
(`dirMtime = none` models a missing or non-directory path). -/

structure DirState where
  mtime : Nat
  cached_at : Nat
  path : String
  data : List (String × Nat)
  deriving DecidableEq

structure FileSystemCache where
  store : List (String × DirState)
  deriving DecidableEq

/-- `FileSystemCache.get_directory_state`: valid only while the directory's
current mtime has not advanced past the recorded one. -/
def FileSystemCache.get_directory_state (fs : FileSystemCache) (path : String)
    (dirMtime : Option Nat) : Option DirState :=
  match dirMtime with
  | none => none
  | some mt =>
    match lookupKey fs.store path with
    | some st => if mt ≤ st.mtime then some st else none
    | none => none

/-- `FileSystemCache.set_directory_state`: tag the payload with the current
directory mtime and write it; a missing/non-directory path is a no-op. -/
def FileSystemCache.set_directory_state (fs : FileSystemCache) (path : String)
    (data : List (String × Nat)) (dirMtime : Option Nat) (now : Nat) :
    FileSystemCache :=
  match dirMtime with
  | none => fs
  | some mt => { store := setKey fs.store path ⟨mt, now, path, data⟩ }

/-! ### Filters and CacheManager (cache.py, class CacheManager) -/

structure Filters where
  name_filter : Option String
  ext_filter : Option String
  min_size : Option Nat
  max_size : Option Nat
  deriving DecidableEq

/-- `CacheManager._make_cache_key`: a deterministic fingerprint of the
absolute path, the non-null filter fields and the schema version. The
source feeds a canonical JSON string to SHA-256 (an external hashing
primitive); the model keeps the canonical string itself, which preserves
the only property used — determinism. -/
def make_cache_key (path : String) (fl : Filters) : String :=
  let enc : Option String → String := fun o =>
    match o with
    | none => "-"
    | some s => "+" ++ s
  let encN : Option Nat → String := fun o =>
    match o with
    | none => "-"
    | some n => "+" ++ toString n
  String.intercalate "|"
    ["2.0", path, enc fl.name_filter, enc fl.ext_filter,
     encN fl.min_size, encN fl.max_size]

structure CacheManager where
  hierarchical_cache : HierarchicalCache
  fs_cache : FileSystemCache
  enabled : Bool
  deriving DecidableEq

/-- `CacheManager._init`. -/
def CacheManager.init : CacheManager :=
  { hierarchical_cache := HierarchicalCache.init, fs_cache := ⟨[]⟩, enabled := true }

/-- `CacheManager.enable`. -/
def CacheManager.enable (m : CacheManager) : CacheManager :=
  { m with enabled := true }

/-- `CacheManager.disable`. -/
def CacheManager.disable (m : CacheManager) : CacheManager :=
  { m with enabled := false }

/-- `CacheManager.get_file_list`: while disabled, return "not found"
without touching any store. -/
def CacheManager.get_file_list (m : CacheManager) (path : String) (fl : Filters)
    (now : Nat) : Option Val × CacheManager :=
  if m.enabled then
    let key := make_cache_key path fl
    let (v, h1) := m.hierarchical_cache.get key now
    (v, { m with hierarchical_cache := h1 })
  else (none, m)

/-- `CacheManager.set_file_list`: while disabled, a no-op; otherwise derive
the key and write through. When no metadata is given, total byte volume is
computed by statting each result (`sizes` models `Path(p).stat().st_size`). -/
def CacheManager.set_file_list (m : CacheManager) (path : String) (fl : Filters)
    (file_list : Val) (metadata : Option Nat) (sizes : String → Nat) (now : Nat) :
    CacheManager :=
  if m.enabled then
    let key := make_cache_key path fl
    let md : Option Nat :=
      match metadata with
      | some t => some t
      | none => some ((file_list.map sizes).sum)
    { m with hierarchical_cache :=
        m.hierarchical_cache.set key file_list path md now }
  else m

/-- `CacheManager.get_directory_stats`: read-only probe of the
directory-state cache, disabled ⇒ "not found". -/
def CacheManager.get_directory_stats (m : CacheManager) (path : String)
    (dirMtime : Option Nat) : Option DirState :=
  if m.enabled then m.fs_cache.get_directory_state path dirMtime else none

/-- `CacheManager.set_directory_stats`: while disabled, a no-op. -/
def CacheManager.set_directory_stats (m : CacheManager) (path : String)
    (data : List (String × Nat)) (dirMtime : Option Nat) (now : Nat) :
    CacheManager :=
  if m.enabled then
    { m with fs_cache := m.fs_cache.set_directory_state path data dirMtime now }
  else m

/-! ### Filesystem model for the scanner (scanner.py, class AsyncScanner)

A directory tree is a list of entries; paths are component lists below the
scan root. A followed symlink to a directory is modelled with its resolved
target subtree inline (`_listdir` calls `target.resolve()` and then walks
the target). `statok = false` models an entry whose `aiofiles.os.stat`
raises (permission denied, dangling link, race-deleted file). A scan root
of `none` models a missing or non-directory root: `aiofiles.os.listdir`
raises, which `_listdir` swallows (`except Exception: return`). -/

mutual
inductive FSEntry : Type where
  | file (name : String) (size : Nat) (statok : Bool)
  | dir (name : String) (children : FSDir)
  | symlinkFile (name : String) (size : Nat) (statok : Bool)
  | symlinkDir (name : String) (target : FSDir)
inductive FSDir : Type where
  | nil
  | cons (e : FSEntry) (rest : FSDir)
end

structure YieldedFile where
  path : List String
  size : Nat
  statok : Bool
  deriving DecidableEq

/-! The composed generator `_scan_generator` / `_listdir`. `d` is the
generator depth, `maxd` the ceiling (default 100). In the source the guard
`depth > max_depth` sits at the entry of `_scan_generator`; here it is
inlined at each recursion site. A followed symlinked directory is walked
by a fresh `self._scan_generator(target)` call with default arguments,
i.e. depth 0 and ceiling 100 (its entry guard `0 > 100` is vacuous and
elided). -/

mutual
/-- How `_scan_generator` at depth `d` handles one entry yielded by
`_listdir`: plain files and followed file symlinks are yielded, plain
directories recurse at `d + 1`, followed directory symlinks recurse at
depth 0 with the default ceiling 100, unfollowed symlinks are skipped. -/
def scanEntry (follow : Bool) (pre : List String) (e : FSEntry) (d maxd : Nat) :
    List YieldedFile :=
  match e with
  | .file n sz ok => [⟨pre ++ [n], sz, ok⟩]
  | .dir n cc =>
    if d + 1 > maxd then [] else scanDir follow (pre ++ [n]) cc (d + 1) maxd
  | .symlinkFile n sz ok => if follow then [⟨pre ++ [n], sz, ok⟩] else []
  | .symlinkDir n tgt =>
    if follow then scanDir follow (pre ++ [n]) tgt 0 100 else []
/-- The files yielded while processing one directory listing at depth `d`. -/
def scanDir (follow : Bool) (pre : List String) (cs : FSDir) (d maxd : Nat) :
    List YieldedFile :=
  match cs with
  | .nil => []
  | .cons e es => scanEntry follow pre e d maxd ++ scanDir follow pre es d maxd
end

/-- `_scan_generator(root, 0, 100)` as consumed by `scan`. -/
def scan_generator (follow : Bool) (root : Option FSDir) : List YieldedFile :=
  match root with
  | none => []
  | some cs => scanDir follow [] cs 0 100

/-- The yielded paths only. -/
def scan_paths (follow : Bool) (root : Option FSDir) : List (List String) :=
  (scan_generator follow root).map YieldedFile.path

/-! ### Semaphore event traces

`_listdir` runs `async with self.semaphore:` around its whole body, so the
permit acquired for a directory is released only when the iteration over
that directory — including the recursion performed between its yields —
has finished. The traversal is sequential (a single consumer drives the
generators), so its permit behaviour is exactly an event trace: `acq` when
`_listdir` enters the `async with`, `rel` when the generator is exhausted,
`out p` when a file path is yielded to `scan`. -/

inductive Ev : Type where
  | acq
  | rel
  | out (p : List String)
  deriving DecidableEq

mutual
/-- Event trace of how `_scan_generator` at depth `d` handles one entry:
entering a subdirectory acquires a fresh permit which is released only
when that subdirectory's listing — recursion included — is exhausted. -/
def traceEntry (follow : Bool) (pre : List String) (e : FSEntry) (d maxd : Nat) :
    List Ev :=
  match e with
  | .file n _ _ => [.out (pre ++ [n])]
  | .dir n cc =>
    if d + 1 > maxd then []
    else .acq :: (traceDir follow (pre ++ [n]) cc (d + 1) maxd ++ [.rel])
  | .symlinkFile n _ _ => if follow then [.out (pre ++ [n])] else []
  | .symlinkDir n tgt =>
    if follow then .acq :: (traceDir follow (pre ++ [n]) tgt 0 100 ++ [.rel])
    else []
/-- Event trace of processing one directory listing (the listing itself was
entered by the enclosing `acq`). -/
def traceDir (follow : Bool) (pre : List String) (cs : FSDir) (d maxd : Nat) :
    List Ev :=
  match cs with
  | .nil => []
  | .cons e es => traceEntry follow pre e d maxd ++ traceDir follow pre es d maxd
end

/-- Full permit trace of a scan. Even for a missing root, `_listdir` first
acquires the permit and releases it when `listdir` raises. -/
def scan_trace (follow : Bool) (root : Option FSDir) : List Ev :=
  match root with
  | none => [.acq, .rel]
  | some cs => .acq :: (traceDir follow [] cs 0 100 ++ [.rel])

/-- Permit count after consuming a trace, starting from `o`. -/
def endCount : List Ev → Nat → Nat
  | [], o => o
  | .acq :: t, o => endCount t (o + 1)
  | .rel :: t, o => endCount t (o - 1)
  | .out _ :: t, o => endCount t o

/-- Maximum permit count over all points of a trace, starting from `o`. -/
def maxOutFrom : List Ev → Nat → Nat
  | [], o => o
  | .acq :: t, o => max o (maxOutFrom t (o + 1))
  | .rel :: t, o => max o (maxOutFrom t (o - 1))
  | .out _ :: t, o => max o (maxOutFrom t o)

/-- Maximum number of simultaneously held listing permits during a scan. -/
def maxOutstanding (t : List Ev) : Nat := maxOutFrom t 0

mutual
/-- Deepest chain of directory listings an entry can open (followed
symlinked directories count when `follow` is set). -/
def entryNest (follow : Bool) : FSEntry → Nat
  | .file _ _ _ => 0
  | .dir _ cc => 1 + dirNest follow cc
  | .symlinkFile _ _ _ => 0
  | .symlinkDir _ tgt => if follow then 1 + dirNest follow tgt else 0
/-- Deepest chain of directory listings reachable from a listing. -/
def dirNest (follow : Bool) : FSDir → Nat
  | .nil => 0
  | .cons e es => max (entryNest follow e) (dirNest follow es)
end

mutual
/-- Entry contains no symlinked directory anywhere. -/
def entryNoSymlinkDirs : FSEntry → Bool
  | .file _ _ _ => true
  | .dir _ cc => dirNoSymlinkDirs cc
  | .symlinkFile _ _ _ => true
  | .symlinkDir _ _ => false
/-- Listing contains no symlinked directory anywhere. -/
def dirNoSymlinkDirs : FSDir → Bool
  | .nil => true
  | .cons e es => entryNoSymlinkDirs e && dirNoSymlinkDirs es
end

/-- A chain of `n` nested symlinked directories ending in one file:
a pathological link structure. -/
def linkChain : Nat → FSDir
  | 0 => .cons (.file "f" 0 true) .nil
  | n + 1 => .cons (.symlinkDir "s" (linkChain n)) .nil

/-! ### AsyncScanner.scan (scanner.py lines 57–138) -/

/-- Python exceptions that escape `scan` in the model. -/
inductive PyError : Type where
  | nameError
  deriving DecidableEq

/-- `AsyncScanner.should_ignore`: its body evaluates
`fnmatch(str(path), pattern)`, but `fnmatch` is imported only inside
`add_ignore_pattern` (`from fnmatch import fnmatch` binds in that method's
local scope) and never at module level, so the first loop iteration raises
`NameError`. With an empty pattern list the loop body never runs and the
method returns `False`. -/
def should_ignore (patterns : List String) (path : List String) :
    Except PyError Bool :=
  match patterns, path with
  | [], _ => .ok false
  | _ :: _, _ => .error .nameError

/-- The default ignore set `scan` installs when the caller registered none. -/
def default_ignore_patterns : List String :=
  ["**/.git/**", "**/.svn/**", "**/.hg/**", "**/__pycache__/**",
   "**/*.pyc", "**/*.pyo", "**/*.pyd", "**/.DS_Store"]

/-- Python needle-leads-haystack test on character lists. -/
def charsLead : List Char → List Char → Bool
  | [], _ => true
  | _ :: _, [] => false
  | c :: cs, c2 :: hs => c == c2 && charsLead cs hs

/-- Python substring test on character lists (empty needle always matches). -/
def charsHasSub (n : List Char) : List Char → Bool
  | [] => n.isEmpty
  | c :: cs => charsLead n (c :: cs) || charsHasSub n cs

/-- Python `needle in hay` on strings. -/
def strContains (hay needle : String) : Bool :=
  charsHasSub needle.data hay.data

/-- Python `s.endswith(suf)`. -/
def strEndsWith (s suf : String) : Bool :=
  charsLead suf.data.reverse s.data.reverse

/-- `filepath.name`: the last path component. -/
def nameOf (p : List String) : String := (p.getLast?).getD ""

/-- The four filter checks of `scan`, in source order (name substring,
extension suffix, minimum size, maximum size). Python treats an empty
`name_filter`/`ext_filter` string as falsy and skips the check, but an
empty needle also matches everything, so the translation coincides. -/
def matchesFilters (fl : Filters) (name : String) (size : Nat) : Bool :=
  (match fl.name_filter with
   | some nf => strContains name nf
   | none => true) &&
  (match fl.ext_filter with
   | some ef => strEndsWith name ef
   | none => true) &&
  (match fl.min_size with
   | some m => decide (m ≤ size)
   | none => true) &&
  (match fl.max_size with
   | some mx => decide (size ≤ mx)
   | none => true)

/-- The consumer loop of `scan`: per yielded path, the ignore check (which
raises if any pattern is installed), then `stat` — a failure increments the
permission-error counter and skips the entry — then the filters. Returns
the accepted paths in order together with the permission-error count. -/
def scanLoop (pats : List String) (fl : Filters) :
    List YieldedFile → Except PyError (List (List String) × Nat)
  | [] => .ok ([], 0)
  | yf :: rest =>
    match should_ignore pats yf.path with
    | .error e => .error e
    | .ok true => scanLoop pats fl rest
    | .ok false =>
      if yf.statok then
        if matchesFilters fl (nameOf yf.path) yf.size then
          match scanLoop pats fl rest with
          | .ok (res, errs) => .ok (yf.path :: res, errs)
          | .error e => .error e
        else scanLoop pats fl rest
      else
        match scanLoop pats fl rest with
        | .ok (res, errs) => .ok (res, errs + 1)
        | .error e => .error e

/-- `AsyncScanner.scan`: install the default ignore patterns when none are
registered, then drive the generator through the filter loop. The returned
pair is (results, permission_errors). -/
def scan (follow : Bool) (root : Option FSDir) (fl : Filters)
    (patterns : List String) : Except PyError (List (List String) × Nat) :=
  let pats := if patterns.isEmpty then default_ignore_patterns else patterns
  scanLoop pats fl (scan_generator follow root)

/-- The all-`none` filter set (no `scan` keyword arguments). -/
def noFilters : Filters := ⟨none, none, none, none⟩

/-! ## Lemmas

General facts about the association-list and list primitives used by the
cache model. -/

@[simp] theorem lookupKey_nil {α : Type} (k : String) :
    lookupKey ([] : List (String × α)) k = none := rfl

theorem lookupKey_setKey_self {α : Type} (l : List (String × α)) (k : String) (v : α) :
    lookupKey (setKey l k v) k = some v := by
  induction l with
  | nil => simp [setKey, lookupKey]
  | cons hd tl ih =>
    obtain ⟨k2, v2⟩ := hd
    by_cases h : k2 = k
    · simp [setKey, h, lookupKey]
    · simp [setKey, h, lookupKey, ih]

theorem lookupKey_setKey_ne {α : Type} (l : List (String × α)) {k k2 : String} (v : α)
    (h : k2 ≠ k) : lookupKey (setKey l k v) k2 = lookupKey l k2 := by
  have hk : ¬ k = k2 := fun h2 => h h2.symm
  induction l with
  | nil =>
    simp only [setKey, lookupKey, if_neg hk]
  | cons hd tl ih =>
    obtain ⟨k3, v3⟩ := hd
    by_cases h3 : k3 = k
    · subst h3
      simp only [setKey, if_pos rfl, lookupKey, if_neg hk]
    · simp only [setKey, if_neg h3, lookupKey, ih]

theorem lookupKey_eraseKey_self {α : Type} (l : List (String × α)) (k : String) :
    lookupKey (eraseKey l k) k = none := by
  induction l with
  | nil => simp [eraseKey]
  | cons hd tl ih =>
    obtain ⟨k2, v2⟩ := hd
    by_cases h : k2 = k
    · simp [eraseKey, h, ih]
    · simp [eraseKey, h, lookupKey, ih]

theorem lookupKey_eraseKey_ne {α : Type} (l : List (String × α)) {k k2 : String}
    (h : k2 ≠ k) : lookupKey (eraseKey l k) k2 = lookupKey l k2 := by
  have hk : ¬ k = k2 := fun h2 => h h2.symm
  induction l with
  | nil => simp [eraseKey]
  | cons hd tl ih =>
    obtain ⟨k3, v3⟩ := hd
    by_cases h3 : k3 = k
    · subst h3
      simpa [eraseKey, lookupKey, hk] using ih
    · simp only [eraseKey, if_neg h3, lookupKey, ih]

theorem containsKey_iff_mem_keys {α : Type} (l : List (String × α)) (k : String) :
    containsKey l k = true ↔ k ∈ l.map Prod.fst := by
  induction l with
  | nil => simp [containsKey, lookupKey]
  | cons hd tl ih =>
    obtain ⟨k2, v2⟩ := hd
    by_cases h : k2 = k
    · simp [containsKey, lookupKey, h]
    · simpa [containsKey, lookupKey, h, Ne.symm h] using ih

theorem keys_setKey {α : Type} (l : List (String × α)) (k : String) (v : α) :
    (setKey l k v).map Prod.fst =
      if containsKey l k then l.map Prod.fst else l.map Prod.fst ++ [k] := by
  induction l with
  | nil => simp [setKey, containsKey, lookupKey]
  | cons hd tl ih =>
    obtain ⟨k2, v2⟩ := hd
    by_cases h : k2 = k
    · simp [setKey, h, containsKey, lookupKey]
    · simp only [setKey, if_neg h, List.map_cons, containsKey, lookupKey, if_neg h]
      rw [ih]
      by_cases h2 : containsKey tl k
      · simp [containsKey] at h2
        simp [containsKey, h2]
      · simp [containsKey] at h2
        simp [containsKey, h2]

theorem keys_eraseKey {α : Type} (l : List (String × α)) (k : String) :
    (eraseKey l k).map Prod.fst = (l.map Prod.fst).filter (fun x => x ≠ k) := by
  induction l with
  | nil => simp [eraseKey]
  | cons hd tl ih =>
    obtain ⟨k2, v2⟩ := hd
    by_cases h : k2 = k
    · simp [eraseKey, h, ih]
    · simp [eraseKey, h, ih, List.filter]

theorem keysNodup_setKey {α : Type} (l : List (String × α)) (k : String) (v : α)
    (h : keysNodup l) : keysNodup (setKey l k v) := by
  unfold keysNodup at *
  rw [keys_setKey]
  by_cases h2 : containsKey l k
  · simpa [h2]
  · rw [if_neg h2]
    rw [containsKey_iff_mem_keys] at h2
    simpa [List.nodup_append, h2] using h

theorem keysNodup_eraseKey {α : Type} (l : List (String × α)) (k : String)
    (h : keysNodup l) : keysNodup (eraseKey l k) := by
  unfold keysNodup at *
  rw [keys_eraseKey]
  exact h.filter _

theorem length_setKey {α : Type} (l : List (String × α)) (k : String) (v : α) :
    (setKey l k v).length = if containsKey l k then l.length else l.length + 1 := by
  have h := congrArg List.length (keys_setKey l k v)
  simp only [List.length_map] at h
  by_cases h2 : containsKey l k
  · simpa [h2] using h
  · simpa [h2] using h

theorem length_eraseKey_le {α : Type} (l : List (String × α)) (k : String) :
    (eraseKey l k).length ≤ l.length := by
  induction l with
  | nil => simp [eraseKey]
  | cons hd tl ih =>
    obtain ⟨k2, v2⟩ := hd
    by_cases h : k2 = k
    · simp only [eraseKey, if_pos h]
      exact Nat.le_succ_of_le ih
    · simpa [eraseKey, h] using ih

theorem length_eraseKey_of_contains {α : Type} (l : List (String × α)) (k : String)
    (hnd : keysNodup l) (hc : containsKey l k = true) :
    (eraseKey l k).length + 1 = l.length := by
  induction l with
  | nil => simp [containsKey, lookupKey] at hc
  | cons hd tl ih =>
    obtain ⟨k2, v2⟩ := hd
    unfold keysNodup at hnd
    simp only [List.map_cons, List.nodup_cons] at hnd
    by_cases h : k2 = k
    · subst h
      have : (eraseKey tl k2) = tl := by
        have hk2 : containsKey tl k2 = false := by
          rw [Bool.eq_false_iff]
          intro hmem
          exact hnd.1 ((containsKey_iff_mem_keys tl k2).mp hmem)
        clear ih hc hnd
        induction tl with
        | nil => simp [eraseKey]
        | cons hd2 tl2 ih2 =>
          obtain ⟨k3, v3⟩ := hd2
          by_cases h3 : k3 = k2
          · subst h3
            simp [containsKey, lookupKey] at hk2
          · simp only [containsKey, lookupKey, if_neg h3] at hk2
            simp [eraseKey, h3, ih2 hk2]
      simp [eraseKey, this]
    · simp only [containsKey, lookupKey, if_neg h] at hc
      simp only [eraseKey, if_neg h, List.length_cons]
      rw [← ih hnd.2 hc]

theorem removeFirst_of_not_mem {l : List String} {k : String} (h : k ∉ l) :
    removeFirst l k = l := by
  induction l with
  | nil => rfl
  | cons x xs ih =>
    simp only [List.mem_cons, not_or] at h
    simp [removeFirst, Ne.symm h.1, ih h.2]

theorem mem_removeFirst_of_nodup {l : List String} (hnd : l.Nodup) (k x : String) :
    x ∈ removeFirst l k ↔ x ∈ l ∧ x ≠ k := by
  induction l with
  | nil => simp [removeFirst]
  | cons y ys ih =>
    simp only [List.nodup_cons] at hnd
    by_cases h : y = k
    · subst h
      simp only [removeFirst, if_pos rfl]
      constructor
      · intro hx
        refine ⟨List.mem_cons_of_mem _ hx, ?_⟩
        intro hxy
        subst hxy
        exact hnd.1 hx
      · rintro ⟨hx, hne⟩
        rcases List.mem_cons.mp hx with h2 | h2
        · exact absurd h2 hne
        · exact h2
    · simp only [removeFirst, if_neg h, List.mem_cons]
      rw [ih hnd.2]
      constructor
      · rintro (h2 | ⟨h2, h3⟩)
        · subst h2
          exact ⟨Or.inl rfl, h⟩
        · exact ⟨Or.inr h2, h3⟩
      · rintro ⟨h2 | h2, h3⟩
        · exact Or.inl h2
        · exact Or.inr ⟨h2, h3⟩

theorem nodup_removeFirst {l : List String} (hnd : l.Nodup) (k : String) :
    (removeFirst l k).Nodup := by
  induction l with
  | nil => simp [removeFirst]
  | cons y ys ih =>
    simp only [List.nodup_cons] at hnd
    by_cases h : y = k
    · simpa [removeFirst, h] using hnd.2
    · simp only [removeFirst, if_neg h, List.nodup_cons]
      refine ⟨?_, ih hnd.2⟩
      intro hmem
      exact hnd.1 ((mem_removeFirst_of_nodup hnd.2 k y).mp hmem).1

theorem not_mem_removeFirst_self {l : List String} (hnd : l.Nodup) (k : String) :
    k ∉ removeFirst l k := by
  intro h
  exact ((mem_removeFirst_of_nodup hnd k k).mp h).2 rfl

theorem getLast?_append_single (l : List String) (k : String) :
    (l ++ [k]).getLast? = some k := by
  induction l with
  | nil => rfl
  | cons x xs ih =>
    rw [List.cons_append, List.getLast?_cons, ih]
    simp

/-! Trace lemmas: traces of the permit model are balanced, and their
maximum outstanding count is bounded by the listing-nest depth. -/

theorem endCount_append (a b : List Ev) (o : Nat) :
    endCount (a ++ b) o = endCount b (endCount a o) := by
  induction a generalizing o with
  | nil => rfl
  | cons e t ih => cases e <;> simp [endCount, ih]

theorem le_maxOutFrom (t : List Ev) (o : Nat) : o ≤ maxOutFrom t o := by
  induction t generalizing o with
  | nil => simp [maxOutFrom]
  | cons e t2 ih => cases e <;> simp only [maxOutFrom] <;> exact le_max_left _ _

theorem maxOutFrom_append (a b : List Ev) (o : Nat) :
    maxOutFrom (a ++ b) o = max (maxOutFrom a o) (maxOutFrom b (endCount a o)) := by
  induction a generalizing o with
  | nil =>
    simp only [List.nil_append, maxOutFrom, endCount]
    exact (max_eq_right (le_maxOutFrom b o)).symm
  | cons e t ih =>
    cases e with
    | acq =>
      simp only [List.cons_append, maxOutFrom, endCount, List.append_eq]
      rw [ih]
      omega
    | rel =>
      simp only [List.cons_append, maxOutFrom, endCount, List.append_eq]
      rw [ih]
      omega
    | out p =>
      simp only [List.cons_append, maxOutFrom, endCount, List.append_eq]
      rw [ih]
      omega

mutual
theorem endCount_traceEntry (follow : Bool) (pre : List String) (e : FSEntry)
    (d maxd o : Nat) : endCount (traceEntry follow pre e d maxd) o = o := by
  cases e with
  | file n sz ok => rfl
  | dir n cc =>
    by_cases h : d + 1 > maxd
    · simp [traceEntry, h, endCount]
    · have hrec := endCount_traceDir follow (pre ++ [n]) cc (d + 1) maxd (o + 1)
      simp [traceEntry, h, endCount, endCount_append, hrec]
  | symlinkFile n sz ok =>
    cases follow <;> simp [traceEntry, endCount]
  | symlinkDir n tgt =>
    cases follow with
    | true =>
      have hrec := endCount_traceDir true (pre ++ [n]) tgt 0 100 (o + 1)
      simp [traceEntry, endCount, endCount_append, hrec]
    | false => simp [traceEntry, endCount]
theorem endCount_traceDir (follow : Bool) (pre : List String) (cs : FSDir)
    (d maxd o : Nat) : endCount (traceDir follow pre cs d maxd) o = o := by
  cases cs with
  | nil => rfl
  | cons e es =>
    have h1 := endCount_traceEntry follow pre e d maxd o
    have h2 := endCount_traceDir follow pre es d maxd o
    simp [traceDir, endCount_append, h1, h2]
end

mutual
theorem maxOutFrom_traceEntry_le (follow : Bool) (pre : List String) (e : FSEntry)
    (d maxd o : Nat) :
    maxOutFrom (traceEntry follow pre e d maxd) o ≤ o + entryNest follow e := by
  cases e with
  | file n sz ok => simp [traceEntry, maxOutFrom, entryNest]
  | dir n cc =>
    by_cases h : d + 1 > maxd
    · simp [traceEntry, h, maxOutFrom, entryNest]
    · have hrec := maxOutFrom_traceDir_le follow (pre ++ [n]) cc (d + 1) maxd (o + 1)
      have hbal := endCount_traceDir follow (pre ++ [n]) cc (d + 1) maxd (o + 1)
      simp only [traceEntry, if_neg h, maxOutFrom, maxOutFrom_append, hbal, entryNest]
      omega
  | symlinkFile n sz ok =>
    cases follow <;> simp [traceEntry, maxOutFrom, entryNest]
  | symlinkDir n tgt =>
    cases follow with
    | true =>
      have hrec := maxOutFrom_traceDir_le true (pre ++ [n]) tgt 0 100 (o + 1)
      have hbal := endCount_traceDir true (pre ++ [n]) tgt 0 100 (o + 1)
      simp only [traceEntry, if_pos rfl, maxOutFrom, maxOutFrom_append, hbal, entryNest,
        if_true]
      omega
    | false => simp [traceEntry, maxOutFrom, entryNest]
theorem maxOutFrom_traceDir_le (follow : Bool) (pre : List String) (cs : FSDir)
    (d maxd o : Nat) :
    maxOutFrom (traceDir follow pre cs d maxd) o ≤ o + dirNest follow cs := by
  cases cs with
  | nil => simp [traceDir, maxOutFrom, dirNest]
  | cons e es =>
    have h1 := maxOutFrom_traceEntry_le follow pre e d maxd o
    have h2 := maxOutFrom_traceDir_le follow pre es d maxd o
    have hbal := endCount_traceEntry follow pre e d maxd o
    simp only [traceDir, maxOutFrom_append, hbal, dirNest]
    omega
end

/-! Path-length lemmas: with no symlinked directories, the depth guard
bounds how deep below the root a yielded path can lie. -/

mutual
theorem scanEntry_path_length_le (follow : Bool) (pre : List String) (e : FSEntry)
    (d maxd : Nat) (hns : entryNoSymlinkDirs e = true) (hd : d ≤ maxd) :
    ∀ yf ∈ scanEntry follow pre e d maxd, yf.path.length ≤ pre.length + (maxd + 1 - d) := by
  cases e with
  | file n sz ok =>
    intro yf hyf
    simp only [scanEntry, List.mem_singleton] at hyf
    subst hyf
    simp only [List.length_append, List.length_singleton]
    omega
  | dir n cc =>
    intro yf hyf
    by_cases h : d + 1 > maxd
    · simp [scanEntry, h] at hyf
    · simp only [scanEntry, if_neg h] at hyf
      have hns2 : dirNoSymlinkDirs cc = true := by simpa [entryNoSymlinkDirs] using hns
      have hrec := scanDir_path_length_le follow (pre ++ [n]) cc (d + 1) maxd hns2
        (by omega) yf hyf
      simp only [List.length_append, List.length_singleton] at hrec
      omega
  | symlinkFile n sz ok =>
    intro yf hyf
    by_cases hf : follow
    · simp only [scanEntry, if_pos hf, List.mem_singleton] at hyf
      subst hyf
      simp only [List.length_append, List.length_singleton]
      omega
    · simp [scanEntry, hf] at hyf
  | symlinkDir n tgt =>
    intro yf hyf
    simp [entryNoSymlinkDirs] at hns
theorem scanDir_path_length_le (follow : Bool) (pre : List String) (cs : FSDir)
    (d maxd : Nat) (hns : dirNoSymlinkDirs cs = true) (hd : d ≤ maxd) :
    ∀ yf ∈ scanDir follow pre cs d maxd, yf.path.length ≤ pre.length + (maxd + 1 - d) := by
  cases cs with
  | nil =>
    intro yf hyf
    simp [scanDir] at hyf
  | cons e es =>
    intro yf hyf
    simp only [dirNoSymlinkDirs, Bool.and_eq_true] at hns
    simp only [scanDir, List.mem_append] at hyf
    cases hyf with
    | inl h => exact scanEntry_path_length_le follow pre e d maxd hns.1 hd yf h
    | inr h => exact scanDir_path_length_le follow pre es d maxd hns.2 hd yf h
end

/-! Further association-list lemmas used by the cache proofs. -/

theorem setKey_of_not_contains {α : Type} {l : List (String × α)} {k : String}
    (h : containsKey l k = false) (v : α) : setKey l k v = l ++ [(k, v)] := by
  induction l with
  | nil => rfl
  | cons hd tl ih =>
    obtain ⟨k2, v2⟩ := hd
    by_cases h2 : k2 = k
    · simp [containsKey, lookupKey, h2] at h
    · simp only [containsKey, lookupKey, if_neg h2] at h
      simp [setKey, h2, ih h]

theorem eraseKey_of_not_contains {α : Type} {l : List (String × α)} {k : String}
    (h : containsKey l k = false) : eraseKey l k = l := by
  induction l with
  | nil => rfl
  | cons hd tl ih =>
    obtain ⟨k2, v2⟩ := hd
    by_cases h2 : k2 = k
    · simp [containsKey, lookupKey, h2] at h
    · simp only [containsKey, lookupKey, if_neg h2] at h
      simp [eraseKey, h2, ih h]

theorem containsKey_setKey {α : Type} (l : List (String × α)) (k x : String) (v : α) :
    containsKey (setKey l k v) x = true ↔ x = k ∨ containsKey l x = true := by
  by_cases h : x = k
  · subst h
    simp [containsKey, lookupKey_setKey_self]
  · rw [containsKey, lookupKey_setKey_ne l v h]
    simp [containsKey, h]

theorem containsKey_eraseKey {α : Type} (l : List (String × α)) (k x : String) :
    containsKey (eraseKey l k) x = true ↔ containsKey l x = true ∧ x ≠ k := by
  by_cases h : x = k
  · subst h
    simp [containsKey, lookupKey_eraseKey_self]
  · rw [containsKey, lookupKey_eraseKey_ne l h]
    simp [containsKey, h]

theorem lookupKey_map_of_mem {ks : List String} {k : String}
    (g : String → MemEntry) (h : k ∈ ks) :
    lookupKey (ks.map fun k2 => (k2, g k2)) k = some (g k) := by
  induction ks with
  | nil => simp at h
  | cons x xs ih =>
    by_cases h2 : x = k
    · subst h2
      simp [lookupKey]
    · rcases List.mem_cons.mp h with h3 | h3
      · exact absurd h3.symm h2
      · simp [lookupKey, h2, ih h3]

theorem lookupKey_map_of_not_mem {ks : List String} {k : String}
    (g : String → MemEntry) (h : k ∉ ks) :
    lookupKey (ks.map fun k2 => (k2, g k2)) k = none := by
  induction ks with
  | nil => rfl
  | cons x xs ih =>
    simp only [List.mem_cons, not_or] at h
    simp [lookupKey, Ne.symm h.1, ih h.2]

theorem nodup_append_single {l : List String} {k : String} (h : l.Nodup)
    (hk : k ∉ l) : (l ++ [k]).Nodup := by
  rw [List.nodup_append]
  refine ⟨h, List.nodup_singleton k, ?_⟩
  intro a ha hb
  rw [List.mem_singleton] at hb
  subst hb
  exact hk ha

/-! The state reached by inserting a run of fresh, distinct keys into a
`MemoryCache` that never reaches capacity: the dict and the recency list
both list the keys in insertion order. -/

theorem foldl_set_fresh (valOf : String → Val) (t ttl N : Nat) (ks : List String) :
    ∀ (pre : List String), (pre ++ ks).Nodup → (pre ++ ks).length ≤ N →
    ks.foldl (fun (c : MemoryCache) k => c.set k (valOf k) t)
      { ttl := ttl, max_size := N,
        cache := pre.map (fun k2 => (k2, ⟨valOf k2, t⟩)),
        access_order := pre, hits := 0, misses := 0 }
    = { ttl := ttl, max_size := N,
        cache := (pre ++ ks).map (fun k2 => (k2, ⟨valOf k2, t⟩)),
        access_order := pre ++ ks, hits := 0, misses := 0 } := by
  induction ks with
  | nil =>
    intro pre h1 h2
    simp
  | cons k ks ih =>
    intro pre hnd hlen
    have hplen : pre.length < N := by
      simp only [List.length_append, List.length_cons] at hlen
      omega
    have hknotpre : k ∉ pre := by
      intro hk
      exact (List.nodup_append.mp hnd).2.2 hk (List.mem_cons_self k ks)
    have hset : MemoryCache.set
        { ttl := ttl, max_size := N,
          cache := pre.map (fun k2 => (k2, ⟨valOf k2, t⟩)),
          access_order := pre, hits := 0, misses := 0 } k (valOf k) t
        = { ttl := ttl, max_size := N,
            cache := (pre ++ [k]).map (fun k2 => (k2, ⟨valOf k2, t⟩)),
            access_order := pre ++ [k], hits := 0, misses := 0 } := by
      have hcont : containsKey (pre.map fun k2 => (k2, (⟨valOf k2, t⟩ : MemEntry))) k
          = false := by
        simp [containsKey, lookupKey_map_of_not_mem _ hknotpre]
      unfold MemoryCache.set
      simp only [List.length_map]
      rw [if_neg (by omega)]
      rw [setKey_of_not_contains hcont, removeFirst_of_not_mem hknotpre]
      simp
    rw [List.foldl_cons, hset]
    have hres := ih (pre ++ [k])
      (by simpa [List.append_assoc] using hnd)
      (by simpa [List.append_assoc] using hlen)
    simpa [List.append_assoc] using hres

/-! Cache operation helper lemmas. -/

theorem MemoryCache.set_ttl_eq (c : MemoryCache) (k : String) (v : Val) (now : Nat) :
    (c.set k v now).ttl = c.ttl := by
  unfold MemoryCache.set
  by_cases h : c.max_size ≤ c.cache.length
  · simp only [if_pos h]
    cases c.access_order <;> rfl
  · simp only [if_neg h]

theorem MemoryCache.set_misses_eq (c : MemoryCache) (k : String) (v : Val) (now : Nat) :
    (c.set k v now).misses = c.misses := by
  unfold MemoryCache.set
  by_cases h : c.max_size ≤ c.cache.length
  · simp only [if_pos h]
    cases c.access_order <;> rfl
  · simp only [if_neg h]

theorem MemoryCache.lookup_set_self (c : MemoryCache) (k : String) (v : Val) (now : Nat) :
    lookupKey (c.set k v now).cache k = some ⟨v, now⟩ := by
  unfold MemoryCache.set
  by_cases h : c.max_size ≤ c.cache.length
  · simp only [if_pos h]
    cases c.access_order <;> exact lookupKey_setKey_self _ _ _
  · simp only [if_neg h]
    exact lookupKey_setKey_self _ _ _

/-- Memory-tier round trip within TTL. -/
theorem MemoryCache.mem_get_after_set (c : MemoryCache) (k : String) (v : Val)
    (t0 now : Nat) (h : now - t0 ≤ c.ttl) :
    ((c.set k v t0).get k now).fst = some v := by
  have hlk := MemoryCache.lookup_set_self c k v t0
  have httl := MemoryCache.set_ttl_eq c k v t0
  simp only [MemoryCache.get, hlk, httl]
  rw [if_neg (by omega)]

/-- Disk-tier round trip within TTL. -/
theorem DiskCache.disk_get_after_set (c : DiskCache) (k : String) (v : Val) (p : String)
    (md : Option Nat) (t0 now : Nat) (h : now - t0 ≤ c.ttl) :
    ((c.set k v p md t0).get k now).fst = some v := by
  simp only [DiskCache.get, DiskCache.set, lookupKey_setKey_self]
  rw [if_neg (by simp; omega)]

/-- Facade round trip within the memory tier TTL. -/
theorem HierarchicalCache.hier_get_after_set (h : HierarchicalCache) (k : String) (v : Val)
    (p : String) (md : Option Nat) (t0 now : Nat)
    (htl : now - t0 ≤ h.memory_cache.ttl) :
    ((h.set k v p md t0).get k now).fst = some v := by
  have hmem : ((h.memory_cache.set k v t0).get k now).fst = some v :=
    MemoryCache.mem_get_after_set h.memory_cache k v t0 now htl
  unfold HierarchicalCache.get HierarchicalCache.set
  cases hpair : (h.memory_cache.set k v t0).get k now with
  | mk f1 s1 =>
    rw [hpair] at hmem
    simp only at hmem
    subst hmem
    simp [hpair]

/-- Facade promotion: memory miss + disk hit returns the disk value and
writes it into the memory tier with a fresh timestamp. -/
theorem HierarchicalCache.get_promote (h : HierarchicalCache) (k : String) (v : Val)
    (now : Nat) (hm : (h.memory_cache.get k now).fst = none)
    (hd : (h.disk_cache.get k now).fst = some v) :
    (h.get k now).fst = some v ∧
    lookupKey ((h.get k now).snd).memory_cache.cache k = some ⟨v, now⟩ := by
  unfold HierarchicalCache.get
  cases hp1 : h.memory_cache.get k now with
  | mk f1 s1 =>
    cases hp2 : h.disk_cache.get k now with
    | mk f2 s2 =>
      rw [hp1] at hm
      simp only at hm
      subst hm
      rw [hp2] at hd
      simp only at hd
      subst hd
      simp [hp1, hp2, MemoryCache.lookup_set_self]

/-- Facade double miss. -/
theorem HierarchicalCache.get_miss (h : HierarchicalCache) (k : String) (now : Nat)
    (hm : (h.memory_cache.get k now).fst = none)
    (hd : (h.disk_cache.get k now).fst = none) :
    (h.get k now).fst = none := by
  unfold HierarchicalCache.get
  cases hp1 : h.memory_cache.get k now with
  | mk f1 s1 =>
    cases hp2 : h.disk_cache.get k now with
    | mk f2 s2 =>
      rw [hp1] at hm
      simp only at hm
      subst hm
      rw [hp2] at hd
      simp only at hd
      subst hd
      simp [hp1, hp2]

/-- Memory tier: a freshly set entry queried past its TTL is reported as a
miss, deleted, and counted. -/
theorem MemoryCache.mem_get_expired_after_set (c : MemoryCache) (k : String) (v : Val)
    (t0 now : Nat) (hexp : now - t0 > c.ttl) :
    ((c.set k v t0).get k now).fst = none ∧
    lookupKey (((c.set k v t0).get k now).snd).cache k = none ∧
    (((c.set k v t0).get k now).snd).misses = (c.set k v t0).misses + 1 := by
  have hlk := MemoryCache.lookup_set_self c k v t0
  have httl := MemoryCache.set_ttl_eq c k v t0
  simp only [MemoryCache.get, hlk, httl]
  rw [if_pos (by omega)]
  exact ⟨rfl, lookupKey_eraseKey_self _ _, rfl⟩

/-- Memory tier: a get is a hit exactly when the key is present and fresh,
and a hit bumps the hit counter. -/
theorem MemoryCache.mem_get_hit_iff (c : MemoryCache) (k : String) (now : Nat) :
    (((c.get k now).fst).isSome = true ↔
      ∃ e, lookupKey c.cache k = some e ∧ now - e.timestamp ≤ c.ttl) ∧
    (((c.get k now).fst).isSome = true → ((c.get k now).snd).hits = c.hits + 1) := by
  cases hlk : lookupKey c.cache k with
  | none => simp [MemoryCache.get, hlk]
  | some e =>
    by_cases hexp : now - e.timestamp > c.ttl
    · simp only [MemoryCache.get, hlk, if_pos hexp]
      constructor
      · constructor
        · intro h2
          exact absurd h2 (by simp)
        · rintro ⟨e2, he2, hle⟩
          cases he2
          exact absurd hle (by omega)
      · intro h2
        exact absurd h2 (by simp)
    · simp only [MemoryCache.get, hlk, if_neg hexp]
      constructor
      · constructor
        · intro _
          exact ⟨e, rfl, by omega⟩
        · intro _
          simp
      · intro _
        simp

/-- Disk tier: a freshly set entry queried past its TTL is reported as a
miss, deleted, and counted. -/
theorem DiskCache.disk_get_expired_after_set (c : DiskCache) (k : String) (v : Val)
    (p : String) (md : Option Nat) (t0 now : Nat) (hexp : now - t0 > c.ttl) :
    ((c.set k v p md t0).get k now).fst = none ∧
    lookupKey (((c.set k v p md t0).get k now).snd).table k = none ∧
    (((c.set k v p md t0).get k now).snd).misses = (c.set k v p md t0).misses + 1 := by
  simp only [DiskCache.get, DiskCache.set, lookupKey_setKey_self]
  rw [if_pos (by simp; omega)]
  exact ⟨rfl, lookupKey_eraseKey_self _ _, rfl⟩

/-- Disk tier: a get is a hit exactly when the row is present and fresh,
and a hit bumps the hit counter. -/
theorem DiskCache.disk_get_hit_iff (c : DiskCache) (k : String) (now : Nat) :
    (((c.get k now).fst).isSome = true ↔
      ∃ r, lookupKey c.table k = some r ∧ now - r.timestamp ≤ c.ttl) ∧
    (((c.get k now).fst).isSome = true → ((c.get k now).snd).hits = c.hits + 1) := by
  cases hlk : lookupKey c.table k with
  | none => simp [DiskCache.get, hlk]
  | some r =>
    by_cases hexp : now - r.timestamp > c.ttl
    · simp only [DiskCache.get, hlk, if_pos hexp]
      constructor
      · constructor
        · intro h2
          exact absurd h2 (by simp)
        · rintro ⟨r2, hr2, hle⟩
          cases hr2
          exact absurd hle (by omega)
      · intro h2
        exact absurd h2 (by simp)
    · simp only [DiskCache.get, hlk, if_neg hexp]
      constructor
      · constructor
        · intro _
          exact ⟨r, rfl, by omega⟩
        · intro _
          simp
      · intro _
        simp

/-! Well-formedness preservation for every `MemoryCache` operation. -/

theorem MemoryCache.wf_init (ttl N : Nat) : (MemoryCache.init ttl N).WF := by
  refine ⟨List.nodup_nil, ?_, ?_, ?_⟩
  · intro k
    simp [MemoryCache.init, containsKey]
  · simp [keysNodup, MemoryCache.init]
  · intro _
    simp [MemoryCache.init]

theorem MemoryCache.wf_get (c : MemoryCache) (hwf : c.WF) (k : String) (now : Nat) :
    ((c.get k now).snd).WF := by
  obtain ⟨hnd, hsync, hkn, hbound⟩ := hwf
  cases hlk : lookupKey c.cache k with
  | none =>
    simp only [MemoryCache.get, hlk]
    exact ⟨hnd, hsync, hkn, hbound⟩
  | some e =>
    by_cases hexp : now - e.timestamp > c.ttl
    · simp only [MemoryCache.get, hlk, if_pos hexp]
      refine ⟨nodup_removeFirst hnd k, ?_, keysNodup_eraseKey _ _ hkn, ?_⟩
      · intro x
        rw [mem_removeFirst_of_nodup hnd k x, containsKey_eraseKey]
        constructor
        · rintro ⟨hx, hne⟩
          exact ⟨(hsync x).mp hx, hne⟩
        · rintro ⟨hx, hne⟩
          exact ⟨(hsync x).mpr hx, hne⟩
      · intro h1
        exact le_trans (length_eraseKey_le _ _) (hbound h1)
    · simp only [MemoryCache.get, hlk, if_neg hexp]
      refine ⟨nodup_append_single (nodup_removeFirst hnd k)
        (not_mem_removeFirst_self hnd k), ?_, hkn, hbound⟩
      intro x
      constructor
      · intro hx
        rcases List.mem_append.mp hx with hx1 | hx2
        · exact (hsync x).mp ((mem_removeFirst_of_nodup hnd k x).mp hx1).1
        · rw [List.mem_singleton] at hx2
          subst hx2
          simp [containsKey, hlk]
      · intro hx
        by_cases hxk : x = k
        · subst hxk
          exact List.mem_append_right _ (List.mem_singleton_self x)
        · exact List.mem_append_left _
            ((mem_removeFirst_of_nodup hnd k x).mpr ⟨(hsync x).mpr hx, hxk⟩)

theorem MemoryCache.wf_delete (c : MemoryCache) (hwf : c.WF) (k : String) :
    (c.delete k).WF := by
  obtain ⟨hnd, hsync, hkn, hbound⟩ := hwf
  refine ⟨nodup_removeFirst hnd k, ?_, keysNodup_eraseKey _ _ hkn,
    fun h1 => le_trans (length_eraseKey_le _ _) (hbound h1)⟩
  intro x
  rw [MemoryCache.delete]
  simp only
  rw [mem_removeFirst_of_nodup hnd k x, containsKey_eraseKey]
  constructor
  · rintro ⟨hx, hne⟩
    exact ⟨(hsync x).mp hx, hne⟩
  · rintro ⟨hx, hne⟩
    exact ⟨(hsync x).mpr hx, hne⟩

theorem MemoryCache.wf_clear (c : MemoryCache) : c.clear.WF := by
  refine ⟨List.nodup_nil, ?_, ?_, ?_⟩
  · intro k
    simp [MemoryCache.clear, containsKey]
  · simp [keysNodup, MemoryCache.clear]
  · intro _
    simp [MemoryCache.clear]

theorem MemoryCache.wf_foldl_delete (l : List String) :
    ∀ c : MemoryCache, c.WF → (l.foldl (fun acc k => acc.delete k) c).WF := by
  induction l with
  | nil => intro c h2; exact h2
  | cons k ks ih =>
    intro c h2
    exact ih _ (MemoryCache.wf_delete c h2 k)

theorem MemoryCache.wf_cleanup (c : MemoryCache) (hwf : c.WF) (now : Nat) :
    ((c.cleanup_expired now).fst).WF := by
  exact MemoryCache.wf_foldl_delete _ c hwf

/-- The shape of `set`'s final step: insert at the MRU position keeps the
recency list and the dict synchronized. -/
theorem wf_set_final {cache : List (String × MemEntry)} {order : List String}
    (hnd : order.Nodup) (hsync : ∀ x, x ∈ order ↔ containsKey cache x = true)
    (hkn : keysNodup cache) (k : String) (e : MemEntry) :
    (removeFirst order k ++ [k]).Nodup ∧
    (∀ x, x ∈ removeFirst order k ++ [k] ↔ containsKey (setKey cache k e) x = true) ∧
    keysNodup (setKey cache k e) := by
  refine ⟨nodup_append_single (nodup_removeFirst hnd k)
    (not_mem_removeFirst_self hnd k), ?_, keysNodup_setKey _ _ _ hkn⟩
  intro x
  rw [List.mem_append, List.mem_singleton, mem_removeFirst_of_nodup hnd k x,
    containsKey_setKey]
  constructor
  · rintro (⟨hx, hne⟩ | rfl)
    · exact Or.inr ((hsync x).mp hx)
    · exact Or.inl rfl
  · rintro (rfl | hx)
    · exact Or.inr rfl
    · by_cases hxk : x = k
      · exact Or.inr hxk
      · exact Or.inl ⟨(hsync x).mpr hx, hxk⟩

theorem MemoryCache.wf_set (c : MemoryCache) (hwf : c.WF) (k : String) (v : Val)
    (now : Nat) : (c.set k v now).WF := by
  obtain ⟨hnd, hsync, hkn, hbound⟩ := hwf
  unfold MemoryCache.set
  by_cases hcap : c.max_size ≤ c.cache.length
  · cases horder : c.access_order with
    | nil =>
      have hcache : c.cache = [] := by
        cases hc : c.cache with
        | nil => rfl
        | cons hd tl =>
          exfalso
          have hmem : hd.1 ∈ c.access_order :=
            (hsync hd.1).mpr (by simp [containsKey, hc, lookupKey])
          rw [horder] at hmem
          simp at hmem
      simp only [horder, hcache, ite_self, setKey, removeFirst, List.nil_append]
      refine ⟨?_, ?_, ?_, ?_⟩
      · simp
      · intro x
        constructor
        · intro hx
          rw [List.mem_singleton] at hx
          subst hx
          simp [containsKey, lookupKey]
        · intro hx
          simp only [containsKey, lookupKey] at hx
          by_cases hkx : k = x
          · subst hkx
            simp
          · rw [if_neg hkx] at hx
            simp at hx
      · simp [keysNodup]
      · intro h1
        have h2 : 1 ≤ c.max_size := h1
        simpa using h2
    | cons oldest rest =>
      have hnd2 : (oldest :: rest).Nodup := horder ▸ hnd
      have holdest : containsKey c.cache oldest = true :=
        (hsync oldest).mp (by rw [horder]; simp)
      have hsync1 : ∀ x, x ∈ rest ↔ containsKey (eraseKey c.cache oldest) x = true := by
        intro x
        rw [containsKey_eraseKey]
        constructor
        · intro hx
          have hxo : x ∈ c.access_order := by
            rw [horder]
            exact List.mem_cons_of_mem _ hx
          refine ⟨(hsync x).mp hxo, ?_⟩
          intro hxe
          subst hxe
          exact (List.nodup_cons.mp hnd2).1 hx
        · rintro ⟨hx, hne⟩
          have hxo := (hsync x).mpr hx
          rw [horder] at hxo
          rcases List.mem_cons.mp hxo with h1 | h1
          · exact absurd h1 hne
          · exact h1
      have hfinal := wf_set_final (List.nodup_cons.mp hnd2).2 hsync1
        (keysNodup_eraseKey _ _ hkn) k ⟨v, now⟩
      have hlen : (setKey (eraseKey c.cache oldest) k ⟨v, now⟩).length ≤
          c.cache.length := by
        rw [length_setKey]
        have he := length_eraseKey_of_contains c.cache oldest hkn holdest
        by_cases hc2 : containsKey (eraseKey c.cache oldest) k = true
        · rw [if_pos hc2]
          omega
        · rw [if_neg hc2]
          omega
      simp only [if_pos hcap, horder]
      exact ⟨hfinal.1, hfinal.2.1, hfinal.2.2, fun h1 => le_trans hlen (hbound h1)⟩
  · have hfinal := wf_set_final hnd hsync hkn k ⟨v, now⟩
    have hlen : (setKey c.cache k ⟨v, now⟩).length ≤ c.cache.length + 1 := by
      rw [length_setKey]
      by_cases hc2 : containsKey c.cache k = true
      · rw [if_pos hc2]
        omega
      · rw [if_neg hc2]
    simp only [if_neg hcap]
    refine ⟨hfinal.1, hfinal.2.1, hfinal.2.2, fun h1 => ?_⟩
    have h2 : 1 ≤ c.max_size := h1
    have h3 := hbound h2
    show (setKey c.cache k ⟨v, now⟩).length ≤ c.max_size
    omega

/-- While enabled, `get_file_list` answers exactly what the facade answers
for the derived key. -/
theorem CacheManager.get_file_list_fst (m : CacheManager) (path : String)
    (fl : Filters) (now : Nat) (hen : m.enabled = true) :
    (m.get_file_list path fl now).fst
      = (m.hierarchical_cache.get (make_cache_key path fl) now).fst := by
  simp only [CacheManager.get_file_list, hen, if_true]

theorem eraseKey_cons_self {α : Type} (k : String) (v : α) (l : List (String × α)) :
    eraseKey ((k, v) :: l) k = eraseKey l k := by
  simp [eraseKey]

/-! ## Claims -/

/-- C1: the claim states that `AsyncScanner.scan(T, F)` returns exactly the
deduplicated set of files in `T` passing all filters. The code cannot:
`scan` always installs the default ignore patterns, and `should_ignore`
then raises `NameError` on its first pattern (`fnmatch` is bound only in
the local scope of `add_ignore_pattern`, never at module level), so any
scan whose traversal yields at least one path raises instead of returning
the file set. Evaluated at a directory holding the single file
`file_000.txt` with no filters: the code raises `NameError` where the
claim — and the repository's own tests, which assert `scan_directory`
returns the created files — require `["file_000.txt"]`. -/
theorem scan_nameError_on_single_file :
    scan false (some (.cons (.file "file_000.txt" 10 true) .nil)) noFilters []
      = .error .nameError := rfl

/-- C2 counterexample: in the permit trace of a two-level tree the parent
directory's permit is still held when the subdirectory's permit is
acquired — two permits are simultaneously outstanding in this purely
sequential walk. Had each directory visit released its permit after
listing and before recursing, as the claim states, the sequential
outstanding count could never exceed 1. -/
theorem permit_held_across_recursion :
    maxOutstanding (scan_trace false
      (some (.cons (.dir "a" (.cons (.file "f" 0 true) .nil)) .nil))) = 2 := rfl

/-- C2 (amended): a directory's listing permit is released only after its
entire subtree has been processed — the scan trace of a tree is one
`acq`, the body, then the final `rel` — so the outstanding permit count
equals the nesting depth of directory listings, and it stays within the
configured permit count P whenever the tree's listing-nest depth is below
P (beyond that the semaphore blocks the walk rather than exceeding P). -/
theorem permit_bound_of_nest_lt (follow : Bool) (cs : FSDir) (P : Nat)
    (hP : dirNest follow cs < P) :
    maxOutstanding (scan_trace follow (some cs)) ≤ P ∧
    scan_trace follow (some cs)
      = .acq :: (traceDir follow [] cs 0 100 ++ [.rel]) := by
  constructor
  · have hT := maxOutFrom_traceDir_le follow [] cs 0 100 (0 + 1)
    have hbal := endCount_traceDir follow [] cs 0 100 (0 + 1)
    simp only [maxOutstanding, scan_trace, maxOutFrom, maxOutFrom_append, hbal]
    omega
  · rfl

/-- C2 witness: the amended bound evaluated on a one-file tree with the
default permit count 100. -/
theorem permit_bound_of_nest_lt_witness :
    dirNest false (.cons (.file "w" 1 true) .nil) < 100 ∧
    maxOutstanding (scan_trace false (some (.cons (.file "w" 1 true) .nil))) ≤ 100 ∧
    scan_trace false (some (.cons (.file "w" 1 true) .nil))
      = .acq :: (traceDir false [] (.cons (.file "w" 1 true) .nil) 0 100 ++ [.rel]) :=
  ⟨by decide,
   (permit_bound_of_nest_lt false (.cons (.file "w" 1 true) .nil) 100 (by decide)).1,
   (permit_bound_of_nest_lt false (.cons (.file "w" 1 true) .nil) 100 (by decide)).2⟩

/-- C3 counterexample: a scan of a missing (or non-directory) root
surfaces no configuration error at all — `listdir` raises inside
`_listdir`, the bare `except Exception: return` swallows it, and `scan`
returns an empty result with a zero error counter, contrary to the
claimed immediately-surfaced invalid-root failure. -/
theorem invalid_root_yields_ok_empty :
    scan false none noFilters [] = .ok ([], 0) := rfl

/-- C3 (amended): for every missing or non-directory root, under any
filters and ignore patterns, the scan absorbs the failure and returns an
empty result with no caller-visible error; no configuration error is
surfaced (and invalid-root is not the only caller-visible failure either,
since the ignore-check `NameError` escapes on nonempty traversals). -/
theorem scan_invalid_root_absorbed (follow : Bool) (fl : Filters)
    (patterns : List String) : scan follow none fl patterns = .ok ([], 0) := rfl

set_option maxRecDepth 100000 in
/-- C4 counterexample: following a chain of 150 symlinked directories, the
walk yields a file 151 levels below the scan root, because `_listdir`
recurses into a resolved symlink target via `_scan_generator(target)` with
the depth counter reset to its default 0 — the claimed hard 100-level
ceiling does not hold for traversals through followed symlinks. -/
theorem symlink_depth_reset :
    ((scan_paths true (some (linkChain 150))).any fun p => decide (101 < p.length))
      = true := by decide

/-- C4 (amended): with no symlinked directories anywhere in the tree (in
particular whenever symlink following is disabled), the recursion-depth
ceiling does bound the walk: every yielded path lies at most 101
components below the scan root (directories are listed down to depth 100,
so files at depth 101 are the deepest ones yielded). -/
theorem scan_depth_bounded_of_noSymlinkDirs (follow : Bool) (cs : FSDir)
    (p : List String) (hns : dirNoSymlinkDirs cs = true)
    (hp : p ∈ scan_paths follow (some cs)) : p.length ≤ 101 := by
  simp only [scan_paths, scan_generator, List.mem_map] at hp
  obtain ⟨yf, hmem, rfl⟩ := hp
  have h2 := scanDir_path_length_le follow [] cs 0 100 hns (by omega) yf hmem
  simpa using h2

/-- C4 witness: the amended bound evaluated on a two-level symlink-free
tree. -/
theorem scan_depth_bounded_witness :
    dirNoSymlinkDirs (.cons (.dir "d" (.cons (.file "g" 1 true) .nil)) .nil) = true ∧
    ["d", "g"] ∈ scan_paths false
      (some (.cons (.dir "d" (.cons (.file "g" 1 true) .nil)) .nil)) ∧
    (["d", "g"] : List String).length ≤ 101 :=
  ⟨by decide, by decide,
   scan_depth_bounded_of_noSymlinkDirs false
     (.cons (.dir "d" (.cons (.file "g" 1 true) .nil)) .nil) ["d", "g"]
     (by decide) (by decide)⟩

/-- C5: the claim states that a scan over a tree with stat-failing entries
completes, returning the readable entries and counting one permission
error per failing entry. The per-entry `except (OSError, PermissionError)`
handler in `scan` does exactly that, but it is unreachable: the ignore
check that precedes it raises `NameError` on the first yielded path (the
`fnmatch` binding bug of C1), so on a tree with one readable and one
stat-failing file the scan raises instead of completing with
`(["ok.txt"], 1)` as the claim requires. -/
theorem scan_nameError_on_statfail_tree :
    scan false
      (some (.cons (.file "ok.txt" 5 true) (.cons (.file "bad.txt" 0 false) .nil)))
      noFilters [] = .error .nameError := rfl



/-- C6: LRU semantics of the memory tier, in three parts. (1) Starting
from a fresh `MemoryCache` of capacity N ≥ 1, inserting N+1 distinct keys
evicts exactly the first-inserted (least-recently-used) key — a get on it
misses — while each of the other N keys is still retrievable with its
value. (2) Every `set` places the written key at the most-recently-used
(last) position of the recency list. (3) Every hit on `get` moves the key
to the most-recently-used position. -/
theorem memoryCache_lru_eviction :
    (∀ (N ttl t : Nat) (keys : List String) (valOf : String → Val),
      1 ≤ N → keys.Nodup → keys.length = N + 1 →
      (∀ k0, keys.head? = some k0 →
        ((keys.foldl (fun (c : MemoryCache) k => c.set k (valOf k) t)
          (MemoryCache.init ttl N)).get k0 t).fst = none) ∧
      (∀ k ∈ keys.tail,
        ((keys.foldl (fun (c : MemoryCache) k => c.set k (valOf k) t)
          (MemoryCache.init ttl N)).get k t).fst = some (valOf k))) ∧
    (∀ (c : MemoryCache) (k : String) (v : Val) (now : Nat),
      ((c.set k v now).access_order).getLast? = some k) ∧
    (∀ (c : MemoryCache) (k : String) (now : Nat),
      ((c.get k now).fst).isSome = true →
      (((c.get k now).snd).access_order).getLast? = some k) := by
  refine ⟨?_, ?_, ?_⟩
  · intro N ttl t keys valOf hN hnd hlen
    rcases List.eq_nil_or_concat keys with rfl | ⟨front, klast, rfl⟩
    · simp at hlen
    · simp only [List.concat_eq_append] at hnd hlen ⊢
      cases front with
      | nil =>
        exfalso
        simp at hlen
        omega
      | cons f0 frest =>
        have hndkeys : (f0 :: (frest ++ [klast])).Nodup := by simpa using hnd
        have hf0 : f0 ∉ frest ++ [klast] := (List.nodup_cons.mp hndkeys).1
        have hndtail : (frest ++ [klast]).Nodup := (List.nodup_cons.mp hndkeys).2
        have hklast : klast ∉ frest := by
          intro hk
          exact (List.nodup_append.mp hndtail).2.2 hk (List.mem_singleton_self klast)
        have hfrl : frest.length + 1 = N := by
          simp [List.length_append] at hlen
          omega
        have hfront : ((f0 :: frest).foldl
            (fun (c : MemoryCache) k => c.set k (valOf k) t) (MemoryCache.init ttl N))
            = { ttl := ttl, max_size := N,
                cache := (f0 :: frest).map (fun k2 => (k2, ⟨valOf k2, t⟩)),
                access_order := f0 :: frest, hits := 0, misses := 0 } := by
          have h2 := foldl_set_fresh valOf t ttl N (f0 :: frest) []
            (by simpa using (List.nodup_append.mp hnd).1)
            (by simp; omega)
          simpa [MemoryCache.init] using h2
        have hcont1 : containsKey
            (frest.map fun k2 => (k2, (⟨valOf k2, t⟩ : MemEntry))) f0 = false := by
          simp [containsKey,
            lookupKey_map_of_not_mem _ (fun hk => hf0 (List.mem_append_left _ hk))]
        have hcont2 : containsKey
            (frest.map fun k2 => (k2, (⟨valOf k2, t⟩ : MemEntry))) klast = false := by
          simp [containsKey, lookupKey_map_of_not_mem _ hklast]
        have hstep : MemoryCache.set
            { ttl := ttl, max_size := N,
              cache := (f0 :: frest).map (fun k2 => (k2, ⟨valOf k2, t⟩)),
              access_order := f0 :: frest, hits := 0, misses := 0 }
            klast (valOf klast) t
            = { ttl := ttl, max_size := N,
                cache := (frest ++ [klast]).map (fun k2 => (k2, ⟨valOf k2, t⟩)),
                access_order := frest ++ [klast], hits := 0, misses := 0 } := by
          unfold MemoryCache.set
          simp only [List.length_map, List.length_cons]
          rw [if_pos (by omega)]
          simp only [List.map_cons, eraseKey_cons_self]
          rw [eraseKey_of_not_contains hcont1, setKey_of_not_contains hcont2,
            removeFirst_of_not_mem hklast]
          simp [List.map_append]
        have hfold : (((f0 :: frest) ++ [klast]).foldl
            (fun (c : MemoryCache) k => c.set k (valOf k) t) (MemoryCache.init ttl N))
            = { ttl := ttl, max_size := N,
                cache := (frest ++ [klast]).map (fun k2 => (k2, ⟨valOf k2, t⟩)),
                access_order := frest ++ [klast], hits := 0, misses := 0 } := by
          rw [List.foldl_append, hfront]
          simpa using hstep
        constructor
        · intro k0 hk0
          have hk0e : k0 = f0 := by
            simp at hk0
            exact hk0.symm
          subst hk0e
          rw [hfold]
          have hrw : (List.map (fun k2 => (k2, (⟨valOf k2, t⟩ : MemEntry))) frest
              ++ [(klast, ⟨valOf klast, t⟩)])
              = (frest ++ [klast]).map (fun k2 => (k2, (⟨valOf k2, t⟩ : MemEntry))) := by
            simp
          have hlkup : lookupKey
              (List.map (fun k2 => (k2, (⟨valOf k2, t⟩ : MemEntry))) frest
                ++ [(klast, ⟨valOf klast, t⟩)]) k0 = none := by
            rw [hrw]
            exact lookupKey_map_of_not_mem _ hf0
          simp [MemoryCache.get, hlkup]
        · intro k hk
          have hk2 : k ∈ frest ++ [klast] := by simpa using hk
          rw [hfold]
          have hrw : (List.map (fun k2 => (k2, (⟨valOf k2, t⟩ : MemEntry))) frest
              ++ [(klast, ⟨valOf klast, t⟩)])
              = (frest ++ [klast]).map (fun k2 => (k2, (⟨valOf k2, t⟩ : MemEntry))) := by
            simp
          have hlkup : lookupKey
              (List.map (fun k2 => (k2, (⟨valOf k2, t⟩ : MemEntry))) frest
                ++ [(klast, ⟨valOf klast, t⟩)]) k = some ⟨valOf k, t⟩ := by
            rw [hrw]
            exact lookupKey_map_of_mem _ hk2
          simp [MemoryCache.get, hlkup, Nat.sub_self]
  · intro c k v now
    simp only [MemoryCache.set]
    exact getLast?_append_single _ _
  · intro c k now hsome
    cases hlk : lookupKey c.cache k with
    | none =>
      simp only [MemoryCache.get, hlk] at hsome
      simp at hsome
    | some e =>
      by_cases hexp : now - e.timestamp > c.ttl
      · simp only [MemoryCache.get, hlk, if_pos hexp] at hsome
        simp at hsome
      · simp only [MemoryCache.get, hlk, if_neg hexp]
        exact getLast?_append_single _ _

/-- C6 witness: capacity 1, keys "a" then "b": "a" is evicted, "b"
retrievable; a set and a hit both leave the key at the MRU position. -/
theorem memoryCache_lru_eviction_witness :
    (1 ≤ 1 ∧ (["a", "b"] : List String).Nodup ∧
      (["a", "b"] : List String).length = 1 + 1 ∧
      ((["a", "b"].foldl (fun (c : MemoryCache) k => c.set k [k] 0)
        (MemoryCache.init 300 1)).get "a" 0).fst = none ∧
      ((["a", "b"].foldl (fun (c : MemoryCache) k => c.set k [k] 0)
        (MemoryCache.init 300 1)).get "b" 0).fst = some ["b"]) ∧
    (((MemoryCache.init 300 10).set "x" ["v"] 0).access_order.getLast? = some "x") ∧
    (((((MemoryCache.init 300 10).set "y" ["w"] 0).get "y" 0).fst).isSome = true ∧
      (((((MemoryCache.init 300 10).set "y" ["w"] 0).get "y" 0).snd).access_order).getLast?
        = some "y") :=
  ⟨⟨by decide, by decide, by decide,
    (memoryCache_lru_eviction.1 1 300 0 ["a", "b"] (fun k => [k])
      (by decide) (by decide) (by decide)).1 "a" rfl,
    (memoryCache_lru_eviction.1 1 300 0 ["a", "b"] (fun k => [k])
      (by decide) (by decide) (by decide)).2 "b" (by decide)⟩,
   memoryCache_lru_eviction.2.1 (MemoryCache.init 300 10) "x" ["v"] 0,
   ⟨by decide,
    memoryCache_lru_eviction.2.2 ((MemoryCache.init 300 10).set "y" ["w"] 0) "y" 0
      (by decide)⟩⟩

/-- C7: TTL semantics per tier. Memory: an entry set at time t0 and
queried at a time with elapsed age beyond the TTL is a miss, is removed
from the dict, and bumps the miss counter; a get is a hit exactly when the
key is present with age ≤ TTL, and a hit bumps the hit counter. Disk: the
same four facts for the SQLite-backed tier. -/
theorem cache_ttl_expiry :
    (∀ (c : MemoryCache) (k : String) (v : Val) (t0 now : Nat),
      now - t0 > c.ttl →
      ((c.set k v t0).get k now).fst = none ∧
      lookupKey (((c.set k v t0).get k now).snd).cache k = none ∧
      (((c.set k v t0).get k now).snd).misses = (c.set k v t0).misses + 1) ∧
    (∀ (c : MemoryCache) (k : String) (now : Nat),
      ((((c.get k now).fst).isSome = true) ↔
        (∃ e, lookupKey c.cache k = some e ∧ now - e.timestamp ≤ c.ttl)) ∧
      (((c.get k now).fst).isSome = true → ((c.get k now).snd).hits = c.hits + 1)) ∧
    (∀ (c : DiskCache) (k : String) (v : Val) (p : String) (md : Option Nat)
        (t0 now : Nat),
      now - t0 > c.ttl →
      ((c.set k v p md t0).get k now).fst = none ∧
      lookupKey (((c.set k v p md t0).get k now).snd).table k = none ∧
      (((c.set k v p md t0).get k now).snd).misses = (c.set k v p md t0).misses + 1) ∧
    (∀ (c : DiskCache) (k : String) (now : Nat),
      ((((c.get k now).fst).isSome = true) ↔
        (∃ r, lookupKey c.table k = some r ∧ now - r.timestamp ≤ c.ttl)) ∧
      (((c.get k now).fst).isSome = true → ((c.get k now).snd).hits = c.hits + 1)) :=
  ⟨fun c k v t0 now hexp => MemoryCache.mem_get_expired_after_set c k v t0 now hexp,
   fun c k now => MemoryCache.mem_get_hit_iff c k now,
   fun c k v p md t0 now hexp => DiskCache.disk_get_expired_after_set c k v p md t0 now hexp,
   fun c k now => DiskCache.disk_get_hit_iff c k now⟩

/-- C7 witness: a ttl-1 memory tier and a ttl-1 disk tier, written at time
0 and read at times 2 (expired: miss, removed, miss counter) and 0 (hit:
hit counter). -/
theorem cache_ttl_expiry_witness :
    (2 - 0 > (MemoryCache.init 1 10).ttl ∧
     (((MemoryCache.init 1 10).set "k" ["v"] 0).get "k" 2).fst = none ∧
     lookupKey ((((MemoryCache.init 1 10).set "k" ["v"] 0).get "k" 2).snd).cache "k"
       = none ∧
     ((((MemoryCache.init 1 10).set "k" ["v"] 0).get "k" 2).snd).misses
       = ((MemoryCache.init 1 10).set "k" ["v"] 0).misses + 1) ∧
    (((((MemoryCache.init 1 10).set "k" ["v"] 0).get "k" 0).fst).isSome = true ∧
     ((((MemoryCache.init 1 10).set "k" ["v"] 0).get "k" 0).snd).hits
       = ((MemoryCache.init 1 10).set "k" ["v"] 0).hits + 1) ∧
    (2 - 0 > (DiskCache.init 1).ttl ∧
     (((DiskCache.init 1).set "k" ["v"] "p" none 0).get "k" 2).fst = none ∧
     lookupKey ((((DiskCache.init 1).set "k" ["v"] "p" none 0).get "k" 2).snd).table "k"
       = none ∧
     ((((DiskCache.init 1).set "k" ["v"] "p" none 0).get "k" 2).snd).misses
       = ((DiskCache.init 1).set "k" ["v"] "p" none 0).misses + 1) ∧
    (((((DiskCache.init 1).set "k" ["v"] "p" none 0).get "k" 0).fst).isSome = true ∧
     ((((DiskCache.init 1).set "k" ["v"] "p" none 0).get "k" 0).snd).hits
       = ((DiskCache.init 1).set "k" ["v"] "p" none 0).hits + 1) :=
  ⟨⟨by decide,
    (cache_ttl_expiry.1 (MemoryCache.init 1 10) "k" ["v"] 0 2 (by decide)).1,
    (cache_ttl_expiry.1 (MemoryCache.init 1 10) "k" ["v"] 0 2 (by decide)).2.1,
    (cache_ttl_expiry.1 (MemoryCache.init 1 10) "k" ["v"] 0 2 (by decide)).2.2⟩,
   ⟨by decide,
    (cache_ttl_expiry.2.1 ((MemoryCache.init 1 10).set "k" ["v"] 0) "k" 0).2 (by decide)⟩,
   ⟨by decide,
    (cache_ttl_expiry.2.2.1 (DiskCache.init 1) "k" ["v"] "p" none 0 2 (by decide)).1,
    (cache_ttl_expiry.2.2.1 (DiskCache.init 1) "k" ["v"] "p" none 0 2 (by decide)).2.1,
    (cache_ttl_expiry.2.2.1 (DiskCache.init 1) "k" ["v"] "p" none 0 2 (by decide)).2.2⟩,
   ⟨by decide,
    (cache_ttl_expiry.2.2.2 ((DiskCache.init 1).set "k" ["v"] "p" none 0) "k" 0).2
      (by decide)⟩⟩

/-- C8: round trips and hierarchy. Within TTL, a set followed by a get of
the same key returns the stored value — for the memory tier, the disk
tier, and the facade independently. A facade get that misses in memory but
hits on disk returns the disk value and promotes it into the memory tier
(with a fresh timestamp) before returning; a facade get that misses in
both tiers returns "not found". -/
theorem cache_round_trip_and_promotion :
    (∀ (c : MemoryCache) (k : String) (v : Val) (t0 now : Nat),
      now - t0 ≤ c.ttl → ((c.set k v t0).get k now).fst = some v) ∧
    (∀ (c : DiskCache) (k : String) (v : Val) (p : String) (md : Option Nat)
        (t0 now : Nat),
      now - t0 ≤ c.ttl → ((c.set k v p md t0).get k now).fst = some v) ∧
    (∀ (h : HierarchicalCache) (k : String) (v : Val) (p : String) (md : Option Nat)
        (t0 now : Nat),
      now - t0 ≤ h.memory_cache.ttl → ((h.set k v p md t0).get k now).fst = some v) ∧
    (∀ (h : HierarchicalCache) (k : String) (v : Val) (now : Nat),
      (h.memory_cache.get k now).fst = none →
      (h.disk_cache.get k now).fst = some v →
      ((h.get k now).fst = some v ∧
       lookupKey (((h.get k now).snd).memory_cache).cache k = some ⟨v, now⟩)) ∧
    (∀ (h : HierarchicalCache) (k : String) (now : Nat),
      (h.memory_cache.get k now).fst = none →
      (h.disk_cache.get k now).fst = none →
      (h.get k now).fst = none) :=
  ⟨fun c k v t0 now h2 => MemoryCache.mem_get_after_set c k v t0 now h2,
   fun c k v p md t0 now h2 => DiskCache.disk_get_after_set c k v p md t0 now h2,
   fun h k v p md t0 now h2 => HierarchicalCache.hier_get_after_set h k v p md t0 now h2,
   fun h k v now hm hd => HierarchicalCache.get_promote h k v now hm hd,
   fun h k now hm hd => HierarchicalCache.get_miss h k now hm hd⟩

/-- C8 witness: round trips at time 0 on fresh tiers; a facade whose disk
table holds "k" promotes it into the empty memory tier; a fresh facade
misses on an absent key. -/
theorem cache_round_trip_and_promotion_witness :
    ((0 : Nat) - 0 ≤ (MemoryCache.init 300 10).ttl ∧
     (((MemoryCache.init 300 10).set "k" ["v"] 0).get "k" 0).fst = some ["v"]) ∧
    ((0 : Nat) - 0 ≤ (DiskCache.init 3600).ttl ∧
     (((DiskCache.init 3600).set "k" ["v"] "p" none 0).get "k" 0).fst = some ["v"]) ∧
    ((0 : Nat) - 0 ≤ HierarchicalCache.init.memory_cache.ttl ∧
     ((HierarchicalCache.init.set "k" ["v"] "p" none 0).get "k" 0).fst = some ["v"]) ∧
    (((HierarchicalCache.mk (MemoryCache.init 300 1000)
        (DiskCache.mk 3600 [("k", ⟨["v"], 0, "p", 1, 0⟩)] 0 0)).memory_cache.get
          "k" 0).fst = none ∧
     ((HierarchicalCache.mk (MemoryCache.init 300 1000)
        (DiskCache.mk 3600 [("k", ⟨["v"], 0, "p", 1, 0⟩)] 0 0)).disk_cache.get
          "k" 0).fst = some ["v"] ∧
     ((HierarchicalCache.mk (MemoryCache.init 300 1000)
        (DiskCache.mk 3600 [("k", ⟨["v"], 0, "p", 1, 0⟩)] 0 0)).get "k" 0).fst
          = some ["v"] ∧
     lookupKey (((HierarchicalCache.mk (MemoryCache.init 300 1000)
        (DiskCache.mk 3600 [("k", ⟨["v"], 0, "p", 1, 0⟩)] 0 0)).get "k" 0).snd.memory_cache).cache
          "k" = some ⟨["v"], 0⟩) ∧
    ((HierarchicalCache.init.memory_cache.get "nope" 0).fst = none ∧
     (HierarchicalCache.init.disk_cache.get "nope" 0).fst = none ∧
     (HierarchicalCache.init.get "nope" 0).fst = none) :=
  ⟨⟨by decide,
    cache_round_trip_and_promotion.1 (MemoryCache.init 300 10) "k" ["v"] 0 0 (by decide)⟩,
   ⟨by decide,
    cache_round_trip_and_promotion.2.1 (DiskCache.init 3600) "k" ["v"] "p" none 0 0
      (by decide)⟩,
   ⟨by decide,
    cache_round_trip_and_promotion.2.2.1 HierarchicalCache.init "k" ["v"] "p" none 0 0
      (by decide)⟩,
   ⟨by decide, by decide,
    (cache_round_trip_and_promotion.2.2.2.1
      (HierarchicalCache.mk (MemoryCache.init 300 1000)
        (DiskCache.mk 3600 [("k", ⟨["v"], 0, "p", 1, 0⟩)] 0 0)) "k" ["v"] 0
      (by decide) (by decide)).1,
    (cache_round_trip_and_promotion.2.2.2.1
      (HierarchicalCache.mk (MemoryCache.init 300 1000)
        (DiskCache.mk 3600 [("k", ⟨["v"], 0, "p", 1, 0⟩)] 0 0)) "k" ["v"] 0
      (by decide) (by decide)).2⟩,
   ⟨by decide, by decide,
    cache_round_trip_and_promotion.2.2.2.2 HierarchicalCache.init "nope" 0
      (by decide) (by decide)⟩⟩



/-- C9: while the cache manager is disabled, `get_file_list` returns "not
found" and leaves the manager (memory, persistent, and directory-state
stores included) exactly as it was; `set_file_list`,
`set_directory_stats` are no-ops and `get_directory_stats` answers "not
found" without touching anything. Re-enabling after disabling restores
the manager with only the flag flipped, so everything stored before
disabling is visible again: a value cached while enabled is still
returned after a disable/enable round trip. -/
theorem cacheManager_disable_bypass :
    (∀ (m : CacheManager) (path : String) (fl : Filters) (now : Nat),
      m.enabled = false → m.get_file_list path fl now = (none, m)) ∧
    (∀ (m : CacheManager) (path : String) (fl : Filters) (v : Val) (md : Option Nat)
        (sizes : String → Nat) (now : Nat),
      m.enabled = false → m.set_file_list path fl v md sizes now = m) ∧
    (∀ (m : CacheManager) (path : String) (dm : Option Nat),
      m.enabled = false → m.get_directory_stats path dm = none) ∧
    (∀ (m : CacheManager) (path : String) (data : List (String × Nat))
        (dm : Option Nat) (now : Nat),
      m.enabled = false → m.set_directory_stats path data dm now = m) ∧
    (∀ m : CacheManager, m.disable.enable = { m with enabled := true }) ∧
    (∀ (m : CacheManager) (path : String) (fl : Filters) (v : Val) (md : Option Nat)
        (sizes : String → Nat) (t : Nat),
      m.enabled = true →
      ((((m.set_file_list path fl v md sizes t).disable).enable).get_file_list
        path fl t).fst = some v) := by
  refine ⟨?_, ?_, ?_, ?_, ?_, ?_⟩
  · intro m path fl now h2
    simp [CacheManager.get_file_list, h2]
  · intro m path fl v md sizes now h2
    simp [CacheManager.set_file_list, h2]
  · intro m path dm h2
    simp [CacheManager.get_directory_stats, h2]
  · intro m path data dm now h2
    simp [CacheManager.set_directory_stats, h2]
  · intro m
    rfl
  · intro m path fl v md sizes t hen
    rw [CacheManager.get_file_list_fst _ path fl t rfl]
    simp only [CacheManager.set_file_list, hen, if_true, CacheManager.disable,
      CacheManager.enable]
    exact HierarchicalCache.hier_get_after_set _ _ _ _ _ _ _ (by simp)

/-- C9 witness: a disabled fresh manager bypasses all four operations;
disable-then-enable only flips the flag; a file list stored while enabled
survives a disable/enable round trip. -/
theorem cacheManager_disable_bypass_witness :
    ((CacheManager.init.disable).enabled = false ∧
     (CacheManager.init.disable).get_file_list "p" noFilters 0
       = (none, CacheManager.init.disable) ∧
     (CacheManager.init.disable).set_file_list "p" noFilters ["a"] (some 5)
       (fun _ => 0) 0 = CacheManager.init.disable ∧
     (CacheManager.init.disable).get_directory_stats "p" (some 3) = none ∧
     (CacheManager.init.disable).set_directory_stats "p" [("n", 1)] (some 3) 0
       = CacheManager.init.disable) ∧
    (CacheManager.init.disable.enable = { CacheManager.init with enabled := true }) ∧
    (CacheManager.init.enabled = true ∧
     ((((CacheManager.init.set_file_list "p" noFilters ["a"] (some 5)
       (fun _ => 0) 0).disable).enable).get_file_list "p" noFilters 0).fst
        = some ["a"]) :=
  ⟨⟨by decide,
    cacheManager_disable_bypass.1 CacheManager.init.disable "p" noFilters 0 (by decide),
    cacheManager_disable_bypass.2.1 CacheManager.init.disable "p" noFilters ["a"]
      (some 5) (fun _ => 0) 0 (by decide),
    cacheManager_disable_bypass.2.2.1 CacheManager.init.disable "p" (some 3) (by decide),
    cacheManager_disable_bypass.2.2.2.1 CacheManager.init.disable "p" [("n", 1)]
      (some 3) 0 (by decide)⟩,
   cacheManager_disable_bypass.2.2.2.2.1 CacheManager.init,
   ⟨by decide,
    cacheManager_disable_bypass.2.2.2.2.2 CacheManager.init "p" noFilters ["a"]
      (some 5) (fun _ => 0) 0 (by decide)⟩⟩

/-- C10: the MemoryCache representation invariant — the recency list holds
each cached key exactly once and nothing else, the dict keys are unique,
and for a positive capacity the entry count never exceeds it — holds of a
fresh cache and is preserved by every operation: get, set, delete, clear,
and cleanup of expired entries. -/
theorem memoryCache_wf_preserved :
    (∀ ttl N : Nat, (MemoryCache.init ttl N).WF) ∧
    (∀ c : MemoryCache, c.WF →
      (∀ (k : String) (now : Nat), ((c.get k now).snd).WF) ∧
      (∀ (k : String) (v : Val) (now : Nat), (c.set k v now).WF) ∧
      (∀ k : String, (c.delete k).WF) ∧
      (c.clear).WF ∧
      (∀ now : Nat, ((c.cleanup_expired now).fst).WF)) := by
  refine ⟨MemoryCache.wf_init, ?_⟩
  intro c hwf
  exact ⟨fun k now => MemoryCache.wf_get c hwf k now,
    fun k v now => MemoryCache.wf_set c hwf k v now,
    fun k => MemoryCache.wf_delete c hwf k,
    MemoryCache.wf_clear c,
    fun now => MemoryCache.wf_cleanup c hwf now⟩

/-- C10 witness: the invariant holds of a fresh cache of capacity 2 and is
preserved by a set on it. -/
theorem memoryCache_wf_preserved_witness :
    (MemoryCache.init 300 2).WF ∧ ((MemoryCache.init 300 2).set "a" ["x"] 0).WF :=
  ⟨memoryCache_wf_preserved.1 300 2,
   (memoryCache_wf_preserved.2 (MemoryCache.init 300 2)
     (memoryCache_wf_preserved.1 300 2)).2.1 "a" ["x"] 0⟩

end FastFind
